import Mathlib

/-!
Verification of the document decomposition, topic-mapping and similarity-graph
engine of the `nerdbuntu` repository, as a shallow embedding in Lean of
`core/large_document_handler.py`, `core/topic_splitter.py`,
`core/semantic_linker.py` and `generate_topics_from_vectordb.py`.
-/

/-- Splitting a character list at every separator character, keeping empty
pieces (the semantics of Python `str.split(sep)` at character granularity);
written as structural recursion over the characters so that it evaluates by
kernel reduction.  `acc` holds the current piece's characters in reverse. -/
def splitChars (p : Char → Bool) : List Char → List Char → List String
  | [], acc => [String.mk acc.reverse]
  | c :: rest, acc =>
    if p c then String.mk acc.reverse :: splitChars p rest []
    else splitChars p rest (c :: acc)

/-- Python `len(text.split())` (`LargeDocumentHandler.estimate_words`):
split at whitespace and count the non-empty pieces, i.e. the number of
maximal whitespace-free runs of the text. -/
def estimate_words (text : String) : Nat :=
  ((splitChars (fun c => c.isWhitespace) text.toList []).filter fun w => ¬ w.isEmpty).length

/-- Python `markdown_text.split('\n')`. -/
def splitNewlines (text : String) : List String :=
  splitChars (fun c => c = '\n') text.toList []

/-- Python `'\n'.join(lines)`. -/
def joinLines (ls : List String) : String :=
  String.intercalate "\n" ls

/-- Python `sum(self.estimate_words(l) for l in chunk_lines)`
(`split_large_sections`, line 149). -/
def wordSum (ls : List String) : Nat :=
  (ls.map estimate_words).sum

/-- A section dictionary as built by `split_by_sections`,
`merge_small_sections` and `split_large_sections`.  Keys that a given stage
leaves unset (`end_line` on freshly split parts, `content` / `word_count`
before finalization) are modelled as `0` / `""`. -/
structure Section where
  header : String
  level : Nat
  start_line : Nat
  end_line : Nat
  content : String
  word_count : Nat
  lines : List String
deriving Repr, DecidableEq

/-- Python `len(line) - len(line.lstrip('#'))`: the number of leading `'#'`
characters (`split_by_sections`, line 50). -/
def headerLevel (line : String) : Nat :=
  (line.takeWhile fun c => c = '#').length

/-- Python `line.lstrip('#').strip()` (`split_by_sections`, line 62). -/
def headerText (line : String) : String :=
  (line.dropWhile fun c => c = '#').trim

/-- Finalization of the current section dict at loop index `i`: the
`end_line`, `content` and `word_count` assignments of `split_by_sections`
(lines 56-58 and 76-78). -/
def finalizeSection (s : Section) (i : Nat) : Section :=
  { s with end_line := i, content := joinLines s.lines,
           word_count := estimate_words (joinLines s.lines) }

/-- A freshly started section dict of `split_by_sections` (lines 40-45 and
63-68): only `header`, `level`, `start_line` and `lines` are populated. -/
def newSection (hdr : String) (lvl : Nat) (i : Nat) (ls : List String) : Section :=
  { header := hdr, level := lvl, start_line := i, end_line := 0,
    content := "", word_count := 0, lines := ls }

/-- The loop of `LargeDocumentHandler.split_by_sections` over the remaining
lines, carrying the running line index `i` and the current section. -/
def sbsGo : List String → Nat → Section → List Section
  | [], i, cur => if cur.lines.isEmpty then [] else [finalizeSection cur i]
  | line :: rest, i, cur =>
    if line.startsWith "#" ∧ headerLevel line ≤ 2 then
      if cur.lines.isEmpty then
        sbsGo rest (i+1) (newSection (headerText line) (headerLevel line) i [line])
      else
        finalizeSection cur i ::
          sbsGo rest (i+1) (newSection (headerText line) (headerLevel line) i [line])
    else
      sbsGo rest (i+1) { cur with lines := cur.lines ++ [line] }

/-- `LargeDocumentHandler.split_by_sections` (lines 31-81). -/
def split_by_sections (markdown_text : String) : List Section :=
  sbsGo (splitNewlines markdown_text) 0 (newSection "Introduction" 1 0 [])

/-- One absorption step of `merge_small_sections` (lines 100-104):
`current_merged['lines'].extend(section['lines'])` followed by the `content`,
`word_count`, `end_line` and `header` updates. -/
def absorb (cur s : Section) : Section :=
  { cur with lines := cur.lines ++ s.lines,
             content := joinLines (cur.lines ++ s.lines),
             word_count := estimate_words (joinLines (cur.lines ++ s.lines)),
             end_line := s.end_line,
             header := cur.header ++ " & " ++ s.header }

/-- The loop of `merge_small_sections` (lines 94-111) with the current
accumulator; the accumulator is always appended at the end. -/
def mergeGo (min_words : Nat) : Section → List Section → List Section
  | cur, [] => [cur]
  | cur, s :: rest =>
    if cur.word_count < min_words then mergeGo min_words (absorb cur s) rest
    else cur :: mergeGo min_words s rest

/-- `LargeDocumentHandler.merge_small_sections` (lines 83-113): the returned
list.  (The in-place effect on the input caused by the shallow
`sections[0].copy()` is modelled separately by `merge_small_sections_post`.) -/
def merge_small_sections (sections : List Section) (min_words : Nat) : List Section :=
  match sections with
  | [] => []
  | s0 :: rest => mergeGo min_words s0 rest

/-- Companion of `mergeGo` tracking Python aliasing: `current_merged` is a
shallow `.copy()` of the seed section of the current accumulator run, so
`current_merged['lines'].extend(...)` grows the very list object stored in
that input section's `'lines'` key.  Returns the final value of the current
seed's shared lines list, together with the post-call values of the remaining
input sections. -/
def mergePostGo (min_words : Nat) : Section → List Section → List String × List Section
  | cur, [] => (cur.lines, [])
  | cur, s :: rest =>
    if cur.word_count < min_words then
      let p := mergePostGo min_words (absorb cur s) rest
      (p.1, s :: p.2)
    else
      let p := mergePostGo min_words s rest
      (cur.lines, { s with lines := p.1 } :: p.2)

/-- The value of the input list of `merge_small_sections` after the call,
under Python semantics: each section dict is unchanged except that the
`'lines'` list of each accumulator seed has been extended in place with all
absorbed lines (shallow-copy aliasing of `sections[i].copy()`). -/
def merge_small_sections_post (sections : List Section) (min_words : Nat) : List Section :=
  match sections with
  | [] => []
  | s0 :: rest =>
    let p := mergePostGo min_words s0 rest
    { s0 with lines := p.1 } :: p.2

/-- The merged section arising from one accumulator run of
`merge_small_sections`: the run's seed section with every absorbed section
folded in, in order. -/
def mergeGroup (g : Section × List Section) : Section :=
  g.2.foldl absorb g.1

/-- Python `chunk_lines[-20:] if len(chunk_lines) > 20 else []`
(`split_large_sections`, line 147). -/
def overlapOf (cl : List String) : List String :=
  if 20 < cl.length then cl.drop (cl.length - 20) else []

/-- Python `f"{section['header']} (Part {chunk_num})"` (lines 138 and 158). -/
def partHeader (hdr : String) (num : Nat) : String :=
  hdr ++ " (Part " ++ toString num ++ ")"

/-- A chunk dict flushed by `split_large_sections` (lines 137-143 and
157-163); it carries no `start_line` / `end_line` keys, modelled as `0`. -/
def mkPart (hdr : String) (lvl : Nat) (cl : List String) (cw : Nat) : Section :=
  { header := hdr, level := lvl, start_line := 0, end_line := 0,
    content := joinLines cl, word_count := cw, lines := cl }

/-- The inner loop of `split_large_sections` (lines 132-164) over the
remaining lines of one oversized section, with the accumulated chunk lines,
their word total and the part counter. -/
def splitGo (max_words : Nat) (hdr : String) (lvl : Nat) :
    List String → List String → Nat → Nat → List Section
  | [], chunk_lines, chunk_words, chunk_num =>
    if chunk_lines.isEmpty then []
    else [mkPart (if 1 < chunk_num then partHeader hdr chunk_num else hdr)
            lvl chunk_lines chunk_words]
  | l :: rest, chunk_lines, chunk_words, chunk_num =>
    if max_words < chunk_words + estimate_words l ∧ ¬ chunk_lines.isEmpty then
      mkPart (partHeader hdr chunk_num) lvl chunk_lines chunk_words ::
        splitGo max_words hdr lvl rest (overlapOf chunk_lines ++ [l])
          (wordSum (overlapOf chunk_lines ++ [l])) (chunk_num + 1)
    else
      splitGo max_words hdr lvl rest (chunk_lines ++ [l])
        (chunk_words + estimate_words l) chunk_num

/-- The overlap relation between consecutive parts produced by splitting one
oversized section: every part after the first consists of the overlap seed
taken from its predecessor's lines (`overlapOf`, line 147) followed by at
least one freshly consumed line. -/
def consecutiveOverlap (parts : List Section) : Prop :=
  ∀ k p q, parts.get? k = some p → parts.get? (k+1) = some q →
    ∃ l suf, q.lines = overlapOf p.lines ++ l :: suf

/-- The splitting of one oversized section (`split_large_sections`,
lines 126-164). -/
def splitSection (s : Section) (max_words : Nat) : List Section :=
  splitGo max_words s.header s.level s.lines [] 0 1

/-- `LargeDocumentHandler.split_large_sections` (lines 115-166). -/
def split_large_sections (sections : List Section) (max_words : Nat) : List Section :=
  sections.flatMap fun s =>
    if s.word_count ≤ max_words then [s] else splitSection s max_words

/-- One entry of the result list of `process_in_batches` (lines 249-261);
the field `sec` models the `'section'` key (`section` is reserved in Lean). -/
structure BatchResult (ρ : Type) where
  sec : Section
  success : Bool
  result : Option ρ
  error : Option String
deriving Repr, DecidableEq

/-- The observable events of `process_in_batches`, in emission order:
progress-callback notifications and invocations of `process_func`
(identified by the 1-based chunk number). -/
inductive BatchEvent where
  | progress (msg : String)
  | invoke (idx : Nat)
deriving Repr, DecidableEq

/-- The progress message for chunk `i` of `total` (line 245). -/
def chunkMsg (i total : Nat) (hdr : String) : String :=
  "Processing chunk " ++ toString i ++ "/" ++ toString total ++ ": " ++ hdr

/-- The loop of `process_in_batches` (lines 243-261) over the remaining
chunks, with the 1-based index `i`; a raised exception of `process_func` is
modelled as `Except.error`. -/
def pibGo {ρ : Type} (process_func : Section → Except String ρ) (total : Nat) :
    List Section → Nat → List (BatchResult ρ) × List BatchEvent
  | [], _ => ([], [])
  | s :: rest, i =>
    let t := pibGo process_func total rest (i+1)
    match process_func s with
    | .ok r =>
      (⟨s, true, some r, none⟩ :: t.1,
       .progress (chunkMsg i total s.header) :: .invoke i :: t.2)
    | .error e =>
      (⟨s, false, none, some e⟩ :: t.1,
       .progress (chunkMsg i total s.header) :: .invoke i ::
         .progress ("  Error: " ++ e) :: t.2)

/-- `LargeDocumentHandler.process_in_batches` (lines 227-263): the result
list together with the emitted event trace. -/
def process_in_batches {ρ : Type} (sections : List Section)
    (process_func : Section → Except String ρ) :
    List (BatchResult ρ) × List BatchEvent :=
  pibGo process_func sections.length sections 1

/-- The outer loop of `LocalLLMTopicGenerator.cluster_by_similarity`
(`generate_topics_from_vectordb.py`, lines 118-132).  `sims i j` models
`similarities[i][j]`, the cosine-similarity matrix computed from the
embeddings; the algorithm reads it only through the comparison with the
threshold, so the matrix is a parameter here. -/
def clusterLoop (n : Nat) (sims : Nat → Nat → ℚ) (threshold : ℚ) :
    List Nat → Finset Nat → List (List Nat)
  | [], _ => []
  | i :: is, visited =>
    if i ∈ visited then clusterLoop n sims threshold is visited
    else
      let vi := insert i visited
      let cluster := i :: (List.range' (i+1) (n - (i+1))).filter
        (fun j => j ∉ vi ∧ threshold ≤ sims i j)
      cluster :: clusterLoop n sims threshold is (vi ∪ cluster.toFinset)

/-- `LocalLLMTopicGenerator.cluster_by_similarity` (lines 99-138) for `n`
embeddings with similarity matrix `sims`: the outer loop runs over
`range(n)`. -/
def cluster_by_similarity (n : Nat) (sims : Nat → Nat → ℚ) (threshold : ℚ) :
    List (List Nat) :=
  clusterLoop n sims threshold (List.range n) ∅

/-- The unsorted link list built for topic `i` by the inner loop of
`TopicSplitter.generate_semantic_links` (lines 232-244): every other topic,
in embedding-generation order, whose similarity reaches the threshold. -/
def candidateLinks (names : List String) (sims : Nat → Nat → ℚ)
    (threshold : ℚ) (i : Nat) : List (String × ℚ) :=
  (List.range names.length).filterMap fun j =>
    if j ≠ i ∧ threshold ≤ sims i j then some (names.getD j "", sims i j) else none

/-- The descending comparison of
`links[topic_name].sort(key=lambda x: x[1], reverse=True)` (line 247). -/
def simGE (a b : String × ℚ) : Prop := b.2 ≤ a.2

instance : DecidableRel simGE := fun a b => inferInstanceAs (Decidable (b.2 ≤ a.2))

instance : IsTotal (String × ℚ) simGE := ⟨fun a b => le_total b.2 a.2⟩

instance : IsTrans (String × ℚ) simGE := ⟨fun _ _ _ h1 h2 => le_trans h2 h1⟩

/-- `TopicSplitter.generate_semantic_links` (lines 208-251).  The
insertion-ordered `links` dict keyed by the (unique) topic names is modelled
as an association list in embedding-generation order; Python's stable
`list.sort(..., reverse=True)` is modelled by stable insertion sort with the
descending comparison. -/
def generate_semantic_links (names : List String) (sims : Nat → Nat → ℚ)
    (threshold : ℚ) : List (String × List (String × ℚ)) :=
  (List.range names.length).map fun i =>
    (names.getD i "", (candidateLinks names sims threshold i).insertionSort simGE)

/-- The outcome of one attempted collaborator call inside
`SemanticLinker.extract_key_concepts` (lines 86-116): a successfully parsed
JSON list, a parsed non-list value, a raised `HttpResponseError` with its
status code, or any other exception (including JSON decoding errors). -/
inductive CallOutcome where
  | concepts (cs : List String)
  | notAList
  | httpError (status : Nat)
  | otherError
deriving Repr, DecidableEq

/-- `SemanticLinker.extract_key_concepts` (lines 81-116) as a step of the
`azure_available` state machine: given the flag and the collaborator outcome,
returns the concept list, the new flag, and whether the collaborator was
actually invoked. -/
def extract_key_concepts (azure_available : Bool) (o : CallOutcome) :
    List String × Bool × Bool :=
  if azure_available then
    match o with
    | .concepts cs => (cs, true, true)
    | .notAList => ([], true, true)
    | .httpError status => ([], if status = 404 then false else true, true)
    | .otherError => ([], true, true)
  else ([], false, false)

/-- A run of repeated `extract_key_concepts` calls on one `SemanticLinker`
instance: the per-call (result, collaborator-invoked) trace and the final
`azure_available` flag. -/
def runExtract : Bool → List CallOutcome → List (List String × Bool) × Bool
  | avail, [] => ([], avail)
  | avail, o :: os =>
    let step := extract_key_concepts avail o
    let rest := runExtract step.2.1 os
    ((step.1, step.2.2) :: rest.1, rest.2)

/-- Placeholder section used with `List.getD` in concrete statements. -/
def dummySec : Section := newSection "" 0 0 []

/-- A concrete oversized section (bound `5`): twenty empty lines, one 5-word
line, then two 1-word lines.  Splitting it seeds the second chunk with the
20-line overlap plus one line, whose word total already exceeds the bound. -/
def oversec1 : Section :=
  { header := "S", level := 1, start_line := 0, end_line := 0, content := "",
    word_count := 7, lines := List.replicate 20 "" ++ ["a b c d e", "x", "y"] }

/-- A concrete oversized section (bound `5`) whose first flushed part has
exactly 20 lines, so the overlap seed taken by the code is empty. -/
def oversec2 : Section :=
  { header := "S", level := 1, start_line := 0, end_line := 0, content := "",
    word_count := 6, lines := List.replicate 19 "" ++ ["a b c d e", "x"] }

/-- Concrete chunks for exercising `process_in_batches`. -/
def wsec1 : Section := newSection "good" 1 0 ["alpha"]

/-- Second concrete chunk; its processing raises. -/
def wsec2 : Section := newSection "bad" 1 0 ["beta"]

/-- A concrete processing function that raises exactly on `wsec2`. -/
def wfun : Section → Except String Nat :=
  fun s => if s.header = "bad" then .error "boom" else .ok s.lines.length

/-- The similarity matrix of the specification's worked link example:
sim(A,B)=0.8, sim(A,C)=0.5, sim(B,C)=0.2 over topics `A`, `B`, `C`. -/
def simsABC : Nat → Nat → ℚ := fun i j =>
  if (i = 0 ∧ j = 1) ∨ (i = 1 ∧ j = 0) then 8/10
  else if (i = 0 ∧ j = 2) ∨ (i = 2 ∧ j = 0) then 5/10
  else if (i = 1 ∧ j = 2) ∨ (i = 2 ∧ j = 1) then 2/10
  else 1

/-- Two concrete small sections: merging them makes the first one's shared
`'lines'` list grow in place. -/
def msA : Section :=
  { header := "A", level := 1, start_line := 0, end_line := 1, content := "alpha",
    word_count := 1, lines := ["alpha"] }

/-- Second concrete small section for the merge-mutation scenario. -/
def msB : Section :=
  { header := "B", level := 1, start_line := 1, end_line := 2, content := "beta",
    word_count := 1, lines := ["beta"] }

/-- The concatenation of the emitted sections' line lists of `sbsGo` is the
current section's lines followed by the remaining input lines. -/
theorem sbsGo_flatMap_lines (ls : List String) : ∀ (i : Nat) (cur : Section),
    (sbsGo ls i cur).flatMap Section.lines = cur.lines ++ ls := by
  induction ls with
  | nil =>
    intro i cur
    by_cases h : cur.lines.isEmpty
    · simp [sbsGo, h, List.isEmpty_iff.mp h]
    · simp [sbsGo, h, finalizeSection]
  | cons line rest ih =>
    intro i cur
    by_cases h : line.startsWith "#" ∧ headerLevel line ≤ 2
    · by_cases h2 : cur.lines.isEmpty
      · simp [sbsGo, h, h2, ih, newSection, List.isEmpty_iff.mp h2]
      · simp [sbsGo, h, h2, ih, newSection, finalizeSection]
    · simp [sbsGo, h, ih]

/-- C3: For every document text, the sections returned by
`split_by_sections` partition the document's lines: concatenating the
sections' line lists in output order yields exactly the document's line
sequence (`markdown_text.split('\n')`), so every line belongs to exactly one
section, in original order, with no gaps and no overlaps. -/
theorem split_by_sections_partition (markdown_text : String) :
    (split_by_sections markdown_text).flatMap Section.lines
      = splitNewlines markdown_text := by
  unfold split_by_sections
  rw [sbsGo_flatMap_lines]
  simp [newSection]

/-- Each accumulator of `mergeGo` is the `absorb`-fold of a run of adjacent
input sections, and the output is the list of these runs' merges, the runs
concatenating back to the input. -/
theorem mergeGo_groups (m : Nat) (rest : List Section) :
    ∀ (seed : Section) (grp : List Section),
    ∃ gs : List (Section × List Section),
      (gs.flatMap fun g => g.1 :: g.2) = (seed :: grp) ++ rest ∧
      mergeGo m (grp.foldl absorb seed) rest = gs.map mergeGroup := by
  induction rest with
  | nil =>
    intro seed grp
    exact ⟨[(seed, grp)], by simp, by simp [mergeGo, mergeGroup]⟩
  | cons s rest ih =>
    intro seed grp
    by_cases h : (grp.foldl absorb seed).word_count < m
    · obtain ⟨gs, h1, h2⟩ := ih seed (grp ++ [s])
      refine ⟨gs, by simpa using h1, ?_⟩
      simp only [List.foldl_append, List.foldl_cons, List.foldl_nil] at h2
      simpa [mergeGo, h] using h2
    · obtain ⟨gs, h1, h2⟩ := ih s []
      refine ⟨(seed, grp) :: gs, ?_, ?_⟩
      · simp [h1]
      · simp only [List.foldl_nil] at h2
        simp [mergeGo, h, mergeGroup, h2]

/-- The lines of a merged run (the `absorb`-fold over its sections) are the
concatenation of the run's sections' lines. -/
theorem foldl_absorb_lines : ∀ (grp : List Section) (seed : Section),
    (grp.foldl absorb seed).lines = seed.lines ++ grp.flatMap Section.lines := by
  intro grp
  induction grp with
  | nil => intro seed; simp
  | cons a grp ih =>
    intro seed
    rw [List.foldl_cons, ih]
    simp [absorb]

/-- C4: For every section list S and threshold m, `merge_small_sections`
combines only runs of sections adjacent in the original order (the runs
concatenate back to S in order), and the concatenation of the output's
content — its line lists — equals the concatenation of S's line lists: no
line is lost or duplicated. -/
theorem merge_small_sections_preserves (S : List Section) (m : Nat) :
    (∃ gs : List (Section × List Section),
        (gs.flatMap fun g => g.1 :: g.2) = S ∧
        merge_small_sections S m = gs.map mergeGroup) ∧
    (merge_small_sections S m).flatMap Section.lines = S.flatMap Section.lines := by
  have hmain : ∃ gs : List (Section × List Section),
      (gs.flatMap fun g => g.1 :: g.2) = S ∧
      merge_small_sections S m = gs.map mergeGroup := by
    cases S with
    | nil => exact ⟨[], by simp, by simp [merge_small_sections]⟩
    | cons s0 rest =>
      obtain ⟨gs, h1, h2⟩ := mergeGo_groups m rest s0 []
      refine ⟨gs, by simpa using h1, ?_⟩
      simp only [List.foldl_nil] at h2
      simpa [merge_small_sections] using h2
  refine ⟨hmain, ?_⟩
  obtain ⟨gs, h1, h2⟩ := hmain
  rw [h2, ← h1]
  clear h1 h2
  induction gs with
  | nil => simp
  | cons g gs ih => simp [mergeGroup, foldl_absorb_lines, ih]

/-- The overlap seed copied at a split boundary never exceeds 20 lines. -/
theorem overlapOf_length_le (cl : List String) : (overlapOf cl).length ≤ 20 := by
  unfold overlapOf
  split_ifs with h
  · simp only [List.length_drop]
    omega
  · simp

/-- Invariant of the splitter loop: while the accumulator either respects the
bound or is a fresh seed of at most 21 lines, every emitted part does too. -/
theorem splitGo_bound (max_words : Nat) (hdr : String) (lvl : Nat) :
    ∀ (ls cl : List String) (cw num : Nat),
      cw ≤ max_words ∨ cl.length ≤ 21 →
      ∀ p ∈ splitGo max_words hdr lvl ls cl cw num,
        p.word_count ≤ max_words ∨ p.lines.length ≤ 21 := by
  intro ls
  induction ls with
  | nil =>
    intro cl cw num hinv p hp
    by_cases h : cl.isEmpty
    · simp [splitGo, h] at hp
    · simp [splitGo, h] at hp
      rcases hinv with h1 | h2
      · left; simp [hp, mkPart, h1]
      · right; simp [hp, mkPart, h2]
  | cons l rest ih =>
    intro cl cw num hinv p hp
    by_cases h : max_words < cw + estimate_words l ∧ ¬ cl.isEmpty
    · simp only [splitGo] at hp
      rw [if_pos h] at hp
      rcases List.mem_cons.mp hp with hp | hp
      · rcases hinv with h1 | h2
        · left; simp [hp, mkPart, h1]
        · right; simp [hp, mkPart, h2]
      · refine ih _ _ _ (Or.inr ?_) p hp
        have := overlapOf_length_le cl
        simp only [List.length_append, List.length_cons, List.length_nil]
        omega
    · simp only [splitGo] at hp
      rw [if_neg h] at hp
      by_cases hcl : cl.isEmpty
      · refine ih _ _ _ (Or.inr ?_) p hp
        simp [List.isEmpty_iff.mp hcl]
      · refine ih _ _ _ (Or.inl ?_) p hp
        have : ¬ max_words < cw + estimate_words l := fun hlt => h ⟨hlt, hcl⟩
        omega

/-- C1 (amended): every chunk emitted by `split_large_sections` has
`word_count ≤ max_words`, with the sole exception of a freshly seeded part —
a single atomic line, or the at-most-20-line overlap plus the line that
overflowed, hence at most 21 lines — whose own word total already exceeds
the bound; such a part is still emitted, never dropped. -/
theorem split_large_sections_bound (sections : List Section) (max_words : Nat)
    (p : Section) (hp : p ∈ split_large_sections sections max_words) :
    p.word_count ≤ max_words ∨ p.lines.length ≤ 21 := by
  unfold split_large_sections at hp
  rcases List.mem_flatMap.mp hp with ⟨s, _, hmem⟩
  by_cases h : s.word_count ≤ max_words
  · simp only [if_pos h, List.mem_singleton] at hmem
    exact Or.inl (hmem ▸ h)
  · simp only [if_neg h] at hmem
    unfold splitSection at hmem
    exact splitGo_bound max_words s.header s.level s.lines [] 0 1
      (Or.inl (Nat.zero_le _)) p hmem

/-- Witness: the bound disjunction holds for a concrete emitted part. -/
theorem split_large_sections_bound_witness :
    ((splitSection oversec1 5).getD 0 dummySec).word_count ≤ 5 ∨
      ((splitSection oversec1 5).getD 0 dummySec).lines.length ≤ 21 :=
  split_large_sections_bound [oversec1] 5 _ (by decide)

/-- C1 counterexample: splitting `oversec1` at bound 5 emits a part with
`word_count` 6 > 5 consisting of 21 lines — an over-bound part that is not a
single atomic line, refuting the claim's sole-exception clause. -/
theorem split_large_sections_bound_cex :
    ∃ p ∈ split_large_sections [oversec1] 5,
      5 < p.word_count ∧ p.lines.length = 21 := by
  decide


/-- The first part emitted by the splitter loop extends the current
accumulator: its lines begin with the accumulated chunk lines. -/
theorem splitGo_head_lines (max_words : Nat) (hdr : String) (lvl : Nat) :
    ∀ (ls cl : List String) (cw num : Nat) (p : Section),
      (splitGo max_words hdr lvl ls cl cw num).get? 0 = some p →
      ∃ suf, p.lines = cl ++ suf := by
  intro ls
  induction ls with
  | nil =>
    intro cl cw num p hp
    by_cases h : cl.isEmpty
    · simp [splitGo, h] at hp
    · simp [splitGo, h] at hp
      exact ⟨[], by simp [← hp, mkPart]⟩
  | cons l rest ih =>
    intro cl cw num p hp
    by_cases h : max_words < cw + estimate_words l ∧ ¬ cl.isEmpty
    · simp only [splitGo] at hp
      rw [if_pos h] at hp
      simp only [List.get?_cons_zero, Option.some.injEq] at hp
      exact ⟨[], by simp [← hp, mkPart]⟩
    · simp only [splitGo] at hp
      rw [if_neg h] at hp
      obtain ⟨suf, hsuf⟩ := ih _ _ _ p hp
      exact ⟨[l] ++ suf, by simp [hsuf]⟩

/-- Every part emitted after a flush of the splitter loop begins with the
overlap seed taken from its predecessor, followed by at least one fresh
line. -/
theorem splitGo_overlap (max_words : Nat) (hdr : String) (lvl : Nat) :
    ∀ (ls cl : List String) (cw num : Nat),
      consecutiveOverlap (splitGo max_words hdr lvl ls cl cw num) := by
  intro ls
  induction ls with
  | nil =>
    intro cl cw num k p q _ hq
    by_cases h : cl.isEmpty <;>
      simp [splitGo, h, List.get?] at hq
  | cons l rest ih =>
    intro cl cw num
    by_cases h : max_words < cw + estimate_words l ∧ ¬ cl.isEmpty
    · have hout : splitGo max_words hdr lvl (l :: rest) cl cw num =
          mkPart (partHeader hdr num) lvl cl cw ::
            splitGo max_words hdr lvl rest (overlapOf cl ++ [l])
              (wordSum (overlapOf cl ++ [l])) (num + 1) := by
        simp only [splitGo]
        rw [if_pos h]
      rw [hout]
      intro k p q hp hq
      match k with
      | 0 =>
        simp only [List.get?_cons_zero, Option.some.injEq] at hp
        simp only [List.get?_cons_succ] at hq
        obtain ⟨suf, hsuf⟩ := splitGo_head_lines max_words hdr lvl rest
          (overlapOf cl ++ [l]) (wordSum (overlapOf cl ++ [l])) (num + 1) q hq
        refine ⟨l, suf, ?_⟩
        rw [hsuf, ← hp]
        simp [mkPart]
      | Nat.succ k =>
        simp only [List.get?_cons_succ] at hp hq
        exact ih (overlapOf cl ++ [l]) (wordSum (overlapOf cl ++ [l]))
          (num + 1) k p q hp hq
    · have hout : splitGo max_words hdr lvl (l :: rest) cl cw num =
          splitGo max_words hdr lvl rest (cl ++ [l])
            (cw + estimate_words l) num := by
        simp only [splitGo]
        rw [if_neg h]
      rw [hout]
      exact ih (cl ++ [l]) (cw + estimate_words l) num

/-- C2 (amended): when `split_large_sections` splits an oversized section,
every part after the first begins with the overlap seed taken from its
predecessor — the predecessor's trailing 20 lines when the predecessor has
more than 20 lines, and the empty seed (no shared lines) when the
predecessor has 20 or fewer lines — followed by at least one fresh line. -/
theorem split_large_sections_overlap (s : Section) (max_words : Nat)
    (hs : max_words < s.word_count) :
    consecutiveOverlap (split_large_sections [s] max_words) := by
  unfold split_large_sections
  have : ¬ s.word_count ≤ max_words := Nat.not_le.mpr hs
  simp only [List.flatMap_cons, List.flatMap_nil, List.append_nil, if_neg this]
  unfold splitSection
  exact splitGo_overlap max_words s.header s.level s.lines [] 0 1

/-- Witness: the amended overlap relation holds on a concrete oversized
section. -/
theorem split_large_sections_overlap_witness :
    consecutiveOverlap (split_large_sections [oversec1] 5) :=
  split_large_sections_overlap oversec1 5 (by decide)

/-- C2 counterexample: splitting `oversec2` at bound 5 yields two parts whose
first has exactly 20 lines — not fewer than `overlap_lines` — yet the second
part does not begin with (or share) the first part's trailing 20 lines: the
code takes an empty overlap whenever the flushed part has at most 20 lines. -/
theorem split_large_sections_overlap_cex :
    (split_large_sections [oversec2] 5).length = 2 ∧
    ((split_large_sections [oversec2] 5).getD 0 dummySec).lines.length = 20 ∧
    ((split_large_sections [oversec2] 5).getD 1 dummySec).lines.take 20 ≠
      ((split_large_sections [oversec2] 5).getD 0 dummySec).lines.drop
        (((split_large_sections [oversec2] 5).getD 0 dummySec).lines.length - 20) := by
  decide

/-- C9 (code bug evidence): `merge_small_sections` mutates its input.  With
two sections of one line each (the first below the 5-word threshold), the
post-call value of the input has the first section's `'lines'` list extended
in place with the second section's lines — the shallow `sections[0].copy()`
shares the nested list — while the second section is unchanged.  The claim's
"every element of S is unchanged" is false at this input. -/
theorem merge_small_sections_mutates_input :
    merge_small_sections_post [msA, msB] 5 ≠ [msA, msB] ∧
    (merge_small_sections_post [msA, msB] 5).get? 0 =
      some { msA with lines := msA.lines ++ msB.lines } ∧
    (merge_small_sections_post [msA, msB] 5).get? 1 = some msB := by
  decide

/-- The result list of the batch loop: one entry per chunk, in order, fully
determined by that chunk's own outcome. -/
theorem pibGo_results {ρ : Type} (f : Section → Except String ρ) (total : Nat) :
    ∀ (ls : List Section) (i : Nat),
      (pibGo f total ls i).1 = ls.map fun s =>
        match f s with
        | .ok r => ⟨s, true, some r, none⟩
        | .error e => ⟨s, false, none, some e⟩ := by
  intro ls
  induction ls with
  | nil => intro i; simp [pibGo]
  | cons s rest ih =>
    intro i
    simp only [pibGo, List.map_cons]
    cases hf : f s <;> simp [hf, ih]

/-- In the event trace of the batch loop, every chunk's progress notification
is immediately followed by that chunk's invocation. -/
theorem pibGo_events {ρ : Type} (f : Section → Except String ρ) (total : Nat) :
    ∀ (ls : List Section) (i k : Nat) (h : k < ls.length),
      ∃ j, (pibGo f total ls i).2.get? j =
          some (.progress (chunkMsg (i + k) total ((ls.get ⟨k, h⟩)).header)) ∧
        (pibGo f total ls i).2.get? (j + 1) = some (.invoke (i + k)) := by
  intro ls
  induction ls with
  | nil => intro i k h; simp at h
  | cons s rest ih =>
    intro i k h
    match k with
    | 0 =>
      refine ⟨0, ?_, ?_⟩ <;>
        cases hf : f s <;> simp [pibGo, hf]
    | k + 1 =>
      have hk : k < rest.length := Nat.lt_of_succ_lt_succ h
      obtain ⟨j, h1, h2⟩ := ih (i+1) k hk
      have hik : (i + 1) + k = i + (k + 1) := by omega
      rw [hik] at h1 h2
      have hget : ((s :: rest).get ⟨k+1, h⟩) = rest.get ⟨k, hk⟩ := rfl
      rw [hget]
      cases hf : f s with
      | ok r =>
        have e2 : (pibGo f total (s :: rest) i).2 =
            .progress (chunkMsg i total s.header) :: .invoke i ::
              (pibGo f total rest (i+1)).2 := by
          simp [pibGo, hf]
        refine ⟨j + 2, ?_, ?_⟩
        · rw [e2]
          simpa only [List.get?_cons_succ] using h1
        · rw [e2]
          simpa only [List.get?_cons_succ] using h2
      | error e =>
        have e3 : (pibGo f total (s :: rest) i).2 =
            .progress (chunkMsg i total s.header) :: .invoke i ::
              .progress ("  Error: " ++ e) :: (pibGo f total rest (i+1)).2 := by
          simp [pibGo, hf]
        refine ⟨j + 3, ?_, ?_⟩
        · rw [e3]
          simpa only [List.get?_cons_succ] using h1
        · rw [e3]
          simpa only [List.get?_cons_succ] using h2

/-- C5: `process_in_batches` returns exactly one entry per chunk, in input
order; entry `k` records `success = true` with the result when
`process_func` returns on chunk `k`, and `success = false` with the error
recorded when it raises — each entry depends only on its own chunk, so one
chunk's exception never aborts the batch nor alters any other entry — and
each chunk's progress notification is emitted immediately before that
chunk's invocation. -/
theorem process_in_batches_spec {ρ : Type} (sections : List Section)
    (f : Section → Except String ρ) :
    ((process_in_batches sections f).1.length = sections.length) ∧
    (∀ k (h : k < sections.length),
      (process_in_batches sections f).1.get? k =
        some (match f (sections.get ⟨k, h⟩) with
          | .ok r => ⟨sections.get ⟨k, h⟩, true, some r, none⟩
          | .error e => ⟨sections.get ⟨k, h⟩, false, none, some e⟩)) ∧
    (∀ k (h : k < sections.length), ∃ j,
      (process_in_batches sections f).2.get? j =
        some (.progress (chunkMsg (k+1) sections.length
          ((sections.get ⟨k, h⟩)).header)) ∧
      (process_in_batches sections f).2.get? (j+1) = some (.invoke (k+1))) := by
  refine ⟨?_, ?_, ?_⟩
  · rw [process_in_batches, pibGo_results]
    simp
  · intro k h
    rw [process_in_batches, pibGo_results, List.get?_map, List.get?_eq_get h]
    rfl
  · intro k h
    obtain ⟨j, h1, h2⟩ := pibGo_events f sections.length sections 1 k h
    rw [show 1 + k = k + 1 by omega] at h1 h2
    exact ⟨j, h1, h2⟩

/-- Witness: with a concrete two-chunk batch whose second chunk raises, the
failing chunk's entry records the failure. -/
theorem process_in_batches_spec_witness :
    (process_in_batches [wsec1, wsec2] wfun).1.get? 1 =
      some ⟨wsec2, false, none, some "boom"⟩ := by
  rw [(process_in_batches_spec [wsec1, wsec2] wfun).2.1 1 (by decide)]
  decide

/-- Invariant of the clustering outer loop: over the remaining index range,
the emitted clusters contain exactly the not-yet-visited indices, each once. -/
theorem clusterLoop_perm (n : Nat) (sims : Nat → Nat → ℚ) (t : ℚ) :
    ∀ (m i : Nat) (visited : Finset Nat), i + m = n →
      (clusterLoop n sims t (List.range' i m) visited).flatten.Perm
        ((List.range' i m).filter fun j => j ∉ visited) := by
  intro m
  induction m with
  | zero => intro i visited _; simp [clusterLoop]
  | succ m ih =>
    intro i visited hn
    rw [List.range'_succ]
    by_cases hv : i ∈ visited
    · simp only [clusterLoop]
      rw [if_pos hv]
      have hfil : (i :: List.range' (i+1) m).filter (fun j => j ∉ visited) =
          (List.range' (i+1) m).filter (fun j => j ∉ visited) := by
        simp [List.filter_cons, hv]
      rw [hfil]
      exact ih (i+1) visited (by omega)
    · have hm : n - (i+1) = m := by omega
      have hstep : clusterLoop n sims t (i :: List.range' (i+1) m) visited =
          (i :: (List.range' (i+1) m).filter
              (fun j => j ∉ insert i visited ∧ t ≤ sims i j)) ::
            clusterLoop n sims t (List.range' (i+1) m)
              (insert i visited ∪
                (i :: (List.range' (i+1) m).filter
                  (fun j => j ∉ insert i visited ∧ t ≤ sims i j)).toFinset) := by
        simp only [clusterLoop, hm]
        rw [if_neg hv]
      rw [hstep, List.flatten_cons]
      have hfil : (i :: List.range' (i+1) m).filter (fun j => j ∉ visited) =
          i :: (List.range' (i+1) m).filter (fun j => j ∉ visited) := by
        simp [List.filter_cons, hv]
      rw [hfil, List.cons_append]
      refine List.Perm.cons i ?_
      have hne : ∀ j ∈ List.range' (i+1) m, j ≠ i := by
        intro j hj
        have := (List.mem_range'_1.mp hj).1
        omega
      have hA : (List.range' (i+1) m).filter
          (fun j => j ∉ insert i visited ∧ t ≤ sims i j) =
          (List.range' (i+1) m).filter (fun j => j ∉ visited ∧ t ≤ sims i j) := by
        refine List.filter_congr fun j hj => ?_
        rw [decide_eq_decide]
        have hji := hne j hj
        constructor
        · exact fun ⟨h1, h2⟩ => ⟨fun hin => h1 (Finset.mem_insert_of_mem hin), h2⟩
        · refine fun ⟨h1, h2⟩ => ⟨fun hin => ?_, h2⟩
          rcases Finset.mem_insert.mp hin with he | hin2
          · exact hji he
          · exact h1 hin2
      have hB : (List.range' (i+1) m).filter
          (fun j => j ∉ insert i visited ∪
            (i :: (List.range' (i+1) m).filter
              (fun j => j ∉ insert i visited ∧ t ≤ sims i j)).toFinset) =
          (List.range' (i+1) m).filter
            (fun j => j ∉ visited ∧ ¬ t ≤ sims i j) := by
        refine List.filter_congr fun j hj => ?_
        rw [decide_eq_decide]
        have hji := hne j hj
        have hmem : j ∈ insert i visited ∪
            (i :: (List.range' (i+1) m).filter
              (fun j => j ∉ insert i visited ∧ t ≤ sims i j)).toFinset ↔
            j ∈ visited ∨ t ≤ sims i j := by
          rw [Finset.mem_union, Finset.mem_insert, List.mem_toFinset, List.mem_cons,
            List.mem_filter]
          constructor
          · rintro ((he | hvis) | he | hfil2)
            · exact absurd he hji
            · exact Or.inl hvis
            · exact absurd he hji
            · rcases hfil2 with ⟨_, hdec⟩
              rcases of_decide_eq_true hdec with ⟨_, hle⟩
              exact Or.inr hle
          · rintro (hvis | hle)
            · exact Or.inl (Or.inr hvis)
            · by_cases hvis : j ∈ visited
              · exact Or.inl (Or.inr hvis)
              · refine Or.inr (Or.inr ⟨hj, ?_⟩)
                refine decide_eq_true ?_
                refine ⟨fun hin => ?_, hle⟩
                rcases Finset.mem_insert.mp hin with he | hv2
                · exact hji he
                · exact hvis hv2
        constructor
        · intro hnot
          rw [hmem] at hnot
          exact ⟨fun hv2 => hnot (Or.inl hv2), fun hle => hnot (Or.inr hle)⟩
        · intro hj2
          rw [hmem]
          rintro (hvis | hle)
          · exact hj2.1 hvis
          · exact hj2.2 hle
      have hrec := ih (i+1) (insert i visited ∪
        (i :: (List.range' (i+1) m).filter
          (fun j => j ∉ insert i visited ∧ t ≤ sims i j)).toFinset) (by omega)
      refine ((hrec.append_left _).trans ?_)
      rw [hB, hA]
      have hpart := List.filter_append_perm (fun j => t ≤ sims i j)
        ((List.range' (i+1) m).filter (fun j => j ∉ visited))
      have hA2 : ((List.range' (i+1) m).filter (fun j => j ∉ visited)).filter
          (fun j => t ≤ sims i j) =
          (List.range' (i+1) m).filter (fun j => j ∉ visited ∧ t ≤ sims i j) := by
        rw [List.filter_filter]
        refine List.filter_congr fun a _ => ?_
        simp only [Bool.decide_and]
        exact Bool.and_comm _ _
      have hB2 : ((List.range' (i+1) m).filter (fun j => j ∉ visited)).filter
          (fun j => !(decide (t ≤ sims i j))) =
          (List.range' (i+1) m).filter (fun j => j ∉ visited ∧ ¬ t ≤ sims i j) := by
        rw [List.filter_filter]
        refine List.filter_congr fun a _ => ?_
        simp only [Bool.decide_and, decide_not]
        exact Bool.and_comm _ _
      rw [hA2, hB2] at hpart
      exact hpart

/-- The clusters of `cluster_by_similarity` always cover `{0..n-1}` exactly
once (shared helper, any threshold). -/
theorem cluster_partition_helper (n : Nat) (sims : Nat → Nat → ℚ) (t : ℚ) :
    (cluster_by_similarity n sims t).flatten.Perm (List.range n) := by
  have h := clusterLoop_perm n sims t n 0 ∅ (by omega)
  unfold cluster_by_similarity
  rw [List.range_eq_range']
  refine h.trans ?_
  rw [List.filter_eq_self.mpr]
  intro a _
  simp

/-- C6: for every number of embeddings `n`, every similarity matrix and every
threshold, the clusters returned by `cluster_by_similarity` are pairwise
disjoint and their union is the full index set `{0..n-1}`: flattened in
order, they are a permutation of `range n`, so each index appears in exactly
one cluster, exactly once. -/
theorem cluster_by_similarity_partition (n : Nat) (sims : Nat → Nat → ℚ)
    (t : ℚ) :
    (cluster_by_similarity n sims t).flatten.Perm (List.range n) :=
  cluster_partition_helper n sims t

/-- C8 (amended): no eager configuration validation exists; even a similarity
threshold outside `[0,1]` is accepted and the clustering stage runs to
completion on it, returning a partition of the index set instead of any
rejection. -/
theorem cluster_invalid_threshold_proceeds (n : Nat) (sims : Nat → Nat → ℚ)
    (t : ℚ) (h : t < 0 ∨ 1 < t) :
    (cluster_by_similarity n sims t).flatten.Perm (List.range n) :=
  cluster_partition_helper n sims t

/-- Witness: threshold 2 lies outside `[0,1]` and clustering still proceeds. -/
theorem cluster_invalid_threshold_proceeds_witness :
    (cluster_by_similarity 3 (fun _ _ => (0:ℚ)) 2).flatten.Perm (List.range 3) :=
  cluster_invalid_threshold_proceeds 3 (fun _ _ => (0:ℚ)) 2 (Or.inr (by norm_num))

/-- C8 counterexample: with the invalid threshold 2 (> 1), the system is not
rejected eagerly: `cluster_by_similarity` performs its clustering work and
returns a full partition, contradicting "rejected before any clustering
starts". -/
theorem cluster_no_eager_rejection_cex :
    (1:ℚ) < 2 ∧
    cluster_by_similarity 3 (fun _ _ => (0:ℚ)) 2 = [[0], [1], [2]] := by
  constructor
  · norm_num
  · decide

/-- Filtering one similarity level commutes with the descending ordered
insert: inserting a pair places it before exactly the strictly-smaller keys,
so the entries of any fixed similarity keep their relative order. -/
theorem filter_orderedInsert (s : ℚ) (a : String × ℚ) :
    ∀ l : List (String × ℚ),
      (l.orderedInsert simGE a).filter (fun p => p.2 = s) =
        if a.2 = s then a :: l.filter (fun p => p.2 = s)
        else l.filter (fun p => p.2 = s) := by
  intro l
  induction l with
  | nil =>
    by_cases h : a.2 = s <;> simp [List.orderedInsert, h]
  | cons b l ih =>
    rw [List.orderedInsert]
    by_cases hr : simGE a b
    · rw [if_pos hr]
      by_cases h : a.2 = s <;> by_cases hb : b.2 = s <;>
        simp [List.filter_cons, h, hb]
    · rw [if_neg hr]
      rw [List.filter_cons]
      by_cases hb : b.2 = s
      · have ha : ¬ a.2 = s := by
          intro he
          exact hr (by rw [simGE, he, hb])
        simp [hb, ih, ha, List.filter_cons]
      · by_cases h : a.2 = s <;> simp [hb, ih, h, List.filter_cons]

/-- Stability of the modelled Python sort: the sublist of entries of any
fixed similarity is unchanged by the descending insertion sort. -/
theorem filter_insertionSort (s : ℚ) :
    ∀ l : List (String × ℚ),
      (l.insertionSort simGE).filter (fun p => p.2 = s) =
        l.filter (fun p => p.2 = s) := by
  intro l
  induction l with
  | nil => simp
  | cons a l ih =>
    rw [List.insertionSort, filter_orderedInsert]
    by_cases h : a.2 = s <;> simp [h, ih, List.filter_cons]

/-- C7: `generate_semantic_links` maps topic `i` to exactly the pairs
`(other_topic, similarity)` with similarity ≥ threshold, the topic itself
excluded (`candidateLinks`, the loop's unsorted list in embedding-generation
order): the published list is a permutation of it, sorted descending by
similarity, and within every fixed similarity level the original
embedding-generation order is kept — ties are broken by stable input order. -/
theorem generate_semantic_links_spec (names : List String)
    (sims : Nat → Nat → ℚ) (t : ℚ) :
    ((generate_semantic_links names sims t).length = names.length) ∧
    (∀ i (h : i < names.length), ∃ L,
      (generate_semantic_links names sims t).get? i =
        some (names.get ⟨i, h⟩, L) ∧
      L.Perm (candidateLinks names sims t i) ∧
      L.Sorted simGE ∧
      (∀ s : ℚ, L.filter (fun p => p.2 = s) =
        (candidateLinks names sims t i).filter (fun p => p.2 = s))) := by
  constructor
  · simp [generate_semantic_links]
  · intro i h
    refine ⟨(candidateLinks names sims t i).insertionSort simGE, ?_, ?_, ?_, ?_⟩
    · rw [generate_semantic_links, List.get?_map, List.get?_range h]
      simp [List.getD_eq_get?, List.get?_eq_get h, List.getElem?_eq_getElem h]
    · exact List.perm_insertionSort simGE _
    · exact List.sorted_insertionSort simGE _
    · intro s
      exact filter_insertionSort s _

/-- Witness: the specification's worked example — sim(A,B)=0.8, sim(A,C)=0.5,
sim(B,C)=0.2, threshold 0.3 — instantiated at topic `A`. -/
theorem generate_semantic_links_spec_witness :
    ∃ L, (generate_semantic_links ["A", "B", "C"] simsABC (3/10)).get? 0 =
        some ("A", L) ∧
      L.Perm (candidateLinks ["A", "B", "C"] simsABC (3/10) 0) ∧
      L.Sorted simGE ∧
      (∀ s : ℚ, L.filter (fun p => p.2 = s) =
        (candidateLinks ["A", "B", "C"] simsABC (3/10) 0).filter
          (fun p => p.2 = s)) := by
  have h := (generate_semantic_links_spec ["A", "B", "C"] simsABC (3/10)).2 0
    (by norm_num)
  simpa using h

/-- Once `azure_available` is false, every further call returns the empty
list without invoking the collaborator, and the flag stays false. -/
theorem runExtract_disabled : ∀ (os : List CallOutcome),
    runExtract false os = (os.map fun _ => ([], false), false) := by
  intro os
  induction os with
  | nil => rfl
  | cons o os ih => simp [runExtract, extract_key_concepts, ih]

/-- A run over concatenated outcome lists threads the flag through the first
part and continues with the second. -/
theorem runExtract_append : ∀ (xs : List CallOutcome) (a : Bool)
    (ys : List CallOutcome),
    runExtract a (xs ++ ys) =
      ((runExtract a xs).1 ++ (runExtract (runExtract a xs).2 ys).1,
        (runExtract (runExtract a xs).2 ys).2) := by
  intro xs
  induction xs with
  | nil => intro a ys; simp [runExtract]
  | cons x xs ih => intro a ys; simp [runExtract, ih]

/-- One result entry per call. -/
theorem runExtract_length : ∀ (os : List CallOutcome) (a : Bool),
    (runExtract a os).1.length = os.length := by
  intro os
  induction os with
  | nil => intro a; rfl
  | cons o os ih => intro a; simp [runExtract, ih]

/-- Processing a recognized fatal 404 outcome leaves the availability flag
false, whatever its previous value. -/
theorem extract_404_closes (a : Bool) :
    (extract_key_concepts a (CallOutcome.httpError 404)).2.1 = false := by
  cases a <;> simp [extract_key_concepts]

/-- A run that reaches a 404 outcome: the flag is false afterwards and every
later call yields the empty list without invocation. -/
theorem runExtract_404_head (a : Bool) (post : List CallOutcome) :
    runExtract a (CallOutcome.httpError 404 :: post) =
      (((extract_key_concepts a (CallOutcome.httpError 404)).1,
        (extract_key_concepts a (CallOutcome.httpError 404)).2.2) ::
        (post.map fun _ => ([], false)), false) := by
  have h := extract_404_closes a
  simp only [runExtract]
  rw [h, runExtract_disabled]

/-- C10: in any sequence of `extract_key_concepts` calls on one
`SemanticLinker` whose collaborator outcomes contain a recognized fatal
HTTP 404 error, the `azure_available` flag is false from that call on and
never returns to true — the final flag is false regardless of the later
outcomes — and every subsequent call returns the empty list without invoking
the AI collaborator: a sticky circuit breaker, never a transient retry. -/
theorem extract_key_concepts_breaker (pre post : List CallOutcome) :
    (runExtract true (pre ++ CallOutcome.httpError 404 :: post)).2 = false ∧
    (runExtract true (pre ++ CallOutcome.httpError 404 :: post)).1.drop
        (pre.length + 1) = post.map fun _ => ([], false) := by
  rw [runExtract_append, runExtract_404_head]
  constructor
  · rfl
  · have hlen : (runExtract true pre).1.length = pre.length :=
      runExtract_length pre true
    dsimp only
    rw [List.append_cons]
    refine List.drop_left' ?_
    simp [hlen]
